import Mathlib

/-!
Shallow embedding of `src/intset.c` (PostgreSQL tutorial-style intSet type).

A stored intSet is a varlena: a size header plus `count` unsigned 32-bit
integers; the element count is always recovered as `VARSIZE_ANY_EXHDR/4`.
We therefore model a Value as the bare `List Nat` of its elements (each
element a uint32 value, i.e. `< 2^32`), with the count given by `List.length`.

Machine integers are modelled as `Nat` with explicit `% 2^32` at the points
where the C code can wrap (the parse accumulator, and the unsigned
`size - 1` / `mid - 1` / `mid + 1` index arithmetic).  Array reads are
modelled with `List.get?`; a `none` result of an operation means the C code
performed an out-of-bounds read (or, for the fuelled binary search, failed
to terminate) — behaviour that is undefined in the source.
-/

namespace IntSetSpec

/-- `2^32`, the modulus of the C `uint32` arithmetic. -/
def U32 : Nat := 4294967296

/-- Unsigned 32-bit decrement: models the C expression `x - 1` on `uint32`
(wraps to `2^32 - 1` when `x = 0`). -/
def usub1 (x : Nat) : Nat := (x + (U32 - 1)) % U32

/-- Binary tree of uint32 keys; embeds `struct treeNode` (src/intset.c:31). -/
inductive Tree where
  | nil : Tree
  | node (data : Nat) (left : Tree) (right : Tree) : Tree
deriving DecidableEq, Repr

open Tree

/-- `treeHeight` (src/intset.c:566): 0 for the empty tree, else
`max(left, right) + 1`. -/
def treeHeight : Tree → Nat
  | nil => 0
  | node _ l r => (max (treeHeight l) (treeHeight r)) + 1

/-- `left_rotate` (src/intset.c:575).  The C code dereferences
`root->right`; it is only ever called with a non-empty right child, so the
fallback case (returning the tree unchanged) is unreachable in `insertNode`. -/
def left_rotate : Tree → Tree
  | node d l (node rd rl rr) => node rd (node d l rl) rr
  | t => t

/-- `right_rotate` (src/intset.c:584); fallback case as in `left_rotate`. -/
def right_rotate : Tree → Tree
  | node d (node ld ll lr) r => node ld ll (node d lr r)
  | t => t

/-- The rebalancing tail of `insertNode` (src/intset.c:601-617): compute
`balanced = treeHeight(left) - treeHeight(right)` (an `int` in C, an `Int`
here) and apply the rotation case selected by comparing the inserted key
`n` against the immediate child's key.  When `balanced > 1` the C code
reads `root->left->data`, so the left child is a node there (similarly on
the right); the `nil` fallbacks are unreachable. -/
def rebalance (n : Nat) : Tree → Tree
  | nil => nil
  | node d l r =>
    let balanced : Int := (treeHeight l : Int) - (treeHeight r : Int)
    if balanced > 1 then
      match l with
      | node ld _ _ =>
        if n < ld then right_rotate (node d l r)
        else right_rotate (node d (left_rotate l) r)
      | nil => node d l r
    else if balanced < -1 then
      match r with
      | node rd _ _ =>
        if n > rd then left_rotate (node d l r)
        else left_rotate (node d l (right_rotate r))
      | nil => node d l r
    else node d l r

/-- `insertNode` (src/intset.c:594): recursive BST insert (equal keys are
dropped), followed by the rebalancing step at every node on the path. -/
def insertNode (n : Nat) : Tree → Tree
  | nil => node n nil nil
  | node d l r =>
    rebalance n
      (if n > d then node d l (insertNode n r)
       else if n < d then node d (insertNode n l) r
       else node d l r)

/-- `treeSize` (src/intset.c:623): number of nodes. -/
def treeSize : Tree → Nat
  | nil => 0
  | node _ l r => treeSize l + treeSize r + 1

/-- `treeToArr` (src/intset.c:657): in-order traversal into the output
array.  The C threads a write index through the recursion; the list of
written elements is `left ++ [data] ++ right`. -/
def treeToArr : Tree → List Nat
  | nil => []
  | node d l r => treeToArr l ++ d :: treeToArr r

/-- Inserting a whole list of keys, left to right, starting from `t`. -/
def foldInsert (l : List Nat) (t : Tree) : Tree :=
  l.foldl (fun acc x => insertNode x acc) t

/-- `numsEqual` (src/intset.c:679) compares `a[i]` and `b[i]` for
`i < size`; reads are via `get?`, so a `none` marks an out-of-bounds read
(the function is called by `intset_disjunctn` with `size = a.count`
regardless of `b.count`).  Structural recursion on the remaining count. -/
def numsEqualAux (a b : List Nat) : Nat → Nat → Option Bool
  | _, 0 => some true
  | i, k + 1 =>
    match a.get? i, b.get? i with
    | some x, some y => if x ≠ y then some false else numsEqualAux a b (i + 1) k
    | _, _ => none

/-- `numsEqual(a, b, size)` (src/intset.c:679). -/
def numsEqual (a b : List Nat) (size : Nat) : Option Bool :=
  numsEqualAux a b 0 size

/-- Fuel for the binary search.  Any terminating execution of the C
`binarySearch` halves the `low..high` interval (width at most `2^32`) at
every step, with at most one wrap of the unsigned index arithmetic before
an out-of-bounds read, so 68 steps are never exhausted on a terminating
run; running out of fuel models non-termination. -/
def bsFuel : Nat := 68

/-- `binarySearch` (src/intset.c:668).  `low`, `high`, `mid` are `uint32`:
`mid - 1` and `mid + 1` wrap modulo `2^32` (this is the real behaviour that
sends `high` to `2^32 - 1` when the target is below `n[0]`).  `n[mid]` is
read with `get?`: `none` is an out-of-bounds read. -/
def binarySearchAux (n : List Nat) (target : Nat) : Nat → Nat → Nat → Option Bool
  | 0, _, _ => none
  | fuel + 1, low, high =>
    if high ≥ low then
      let mid := low + (high - low) / 2
      match n.get? mid with
      | none => none
      | some v =>
        if v = target then some true
        else if v > target then binarySearchAux n target fuel low (usub1 mid)
        else binarySearchAux n target fuel ((mid + 1) % U32) high
    else some false

/-- `binarySearch(n, low, high, target)` (src/intset.c:668). -/
def binarySearch (n : List Nat) (low high target : Nat) : Option Bool :=
  binarySearchAux n target bsFuel low high

/-!  The exported operations (src/intset.c:204-549).  Sizes `asize`,
`bsize` are `VARSIZE_ANY_EXHDR/4 = List.length`, except where the source
forgets the division.  Operations whose loops can read out of bounds (via
`binarySearch` underflow, `numsEqual`, or the `intset_contain_all` bound)
return `Option`; `none` marks the out-of-bounds read. -/

/-- `intset_union` (src/intset.c:206): if both operands are empty return the
empty set, else insert all of `a` then all of `b` into a fresh tree and
flatten it. -/
def intset_union (a b : List Nat) : List Nat :=
  if a.length = 0 ∧ b.length = 0 then []
  else treeToArr (foldInsert b (foldInsert a nil))

/-- The loop of `intset_intersectn` (src/intset.c:269,276): walk `src`,
keep the elements that `binarySearch` finds in `hay`, inserting them into
the tree. -/
def insertFoundAux (hay : List Nat) (hsize : Nat) : List Nat → Tree → Option Tree
  | [], t => some t
  | x :: xs, t =>
    (binarySearch hay 0 (usub1 hsize) x).bind
      (fun found => insertFoundAux hay hsize xs (if found then insertNode x t else t))

/-- The loops of `intset_diff` (src/intset.c:533) and `intset_disjunctn`
(src/intset.c:477,481): walk `src`, insert the elements that
`binarySearch` does NOT find in `hay`. -/
def insertNotFoundAux (hay : List Nat) (hsize : Nat) : List Nat → Tree → Option Tree
  | [], t => some t
  | x :: xs, t =>
    (binarySearch hay 0 (usub1 hsize) x).bind
      (fun found => insertNotFoundAux hay hsize xs (if found then t else insertNode x t))

/-- `intset_intersectn` (src/intset.c:246): empty shortcut, then iterate the
smaller operand, testing membership in the larger via binary search. -/
def intset_intersectn (a b : List Nat) : Option (List Nat) :=
  if a.length = 0 ∨ b.length = 0 then some []
  else if a.length < b.length then
    (insertFoundAux b b.length a nil).map treeToArr
  else
    (insertFoundAux a a.length b nil).map treeToArr

/-- `intset_diff` (src/intset.c:501): if `a` is empty return empty, else
keep the elements of `a` not found in `b`.  There is no emptiness check on
`b`: with `b` empty the search runs with `high = 0 - 1 = 2^32 - 1`. -/
def intset_diff (a b : List Nat) : Option (List Nat) :=
  if a.length = 0 then some []
  else (insertNotFoundAux b b.length a nil).map treeToArr

/-- `intset_disjunctn` (src/intset.c:447): pretest `numsEqual(a, b, asize)`
(note: the first `a.count` positions only), then collect the elements of
`a` not found in `b` and the elements of `b` not found in `a`. -/
def intset_disjunctn (a b : List Nat) : Option (List Nat) :=
  match numsEqual a b a.length with
  | none => none
  | some true => some []
  | some false =>
    match insertNotFoundAux b b.length a nil with
    | none => none
    | some t => (insertNotFoundAux a a.length b t).map treeToArr

/-- The loop of `intset_contain_all` (src/intset.c:317): for `i < bound`
read `b[i]` (out of bounds when `i ≥ b.count`!) and binary-search it in
`a`; `false` on the first miss.  Structural recursion on the remaining
count, `i` being the next index. -/
def containAllAux (a b : List Nat) (asize : Nat) : Nat → Nat → Option Bool
  | _, 0 => some true
  | i, k + 1 =>
    (b.get? i).bind (fun x =>
      (binarySearch a 0 (usub1 asize) x).bind (fun found =>
        if found then containAllAux a b asize (i + 1) k else some false))

/-- `intset_contain_all` (src/intset.c:296).  The source sets
`bsize = VARSIZE_ANY_EXHDR(b)` — the `/4` of every sibling function is
missing (src/intset.c:311) — so `bsize` is `4 * b.count`, used both in the
size pretest and as the loop bound. -/
def intset_contain_all (a b : List Nat) : Option Bool :=
  let asize := a.length
  let bsize := 4 * b.length
  if asize < bsize then some false
  else containAllAux a b asize 0 bsize

/-- The loop of `intset_contain_only` (src/intset.c:350): every element of
`a` must be found in `b`. -/
def containOnlyAux (b : List Nat) (bsize : Nat) : List Nat → Option Bool
  | [] => some true
  | x :: xs =>
    (binarySearch b 0 (usub1 bsize) x).bind
      (fun found => if found then containOnlyAux b bsize xs else some false)

/-- `intset_contain_only` (src/intset.c:330). -/
def intset_contain_only (a b : List Nat) : Option Bool :=
  if a.length > b.length then some false
  else containOnlyAux b b.length a

/-- `intset_equal` (src/intset.c:362): size comparison, then `numsEqual`. -/
def intset_equal (a b : List Nat) : Option Bool :=
  if a.length ≠ b.length then some false else numsEqual a b a.length

/-- `intset_not_equal` (src/intset.c:386). -/
def intset_not_equal (a b : List Nat) : Option Bool :=
  if a.length ≠ b.length then some true else (numsEqual a b a.length).map not

/-- `intset_contains` (src/intset.c:409): `false` on the empty set, else
binary search over the whole array. -/
def intset_contains (i : Nat) (a : List Nat) : Option Bool :=
  if a.length = 0 then some false
  else binarySearch a 0 (usub1 a.length) i

/-- `intset_cardinality` (src/intset.c:432): `VARSIZE_ANY_EXHDR/4`. -/
def intset_cardinality (a : List Nat) : Nat := a.length

/-!  Text codec (src/intset.c:69-195). -/

/-- The digit test of the scanner (src/intset.c:110):
`str[i] <= '9' && str[i] >= '0'`. -/
def isDigitCh (c : Char) : Bool := c ≤ '9' && '0' ≤ c

/-- Consume a (possibly empty) run of spaces: the ` *` pieces of the
regex `^ *\{ *(( *[0-9]+ *, *)* *[0-9]+ *)? *\} *$` (src/intset.c:87). -/
def skipSp : List Char → List Char
  | [] => []
  | c :: r => if c = ' ' then skipSp r else c :: r

/-- Element list of the regex, entered at a point where a digit run must
begin: `[0-9]+ *` then either `, *` and another run, or `\} *$`.  Fuelled
(the fuel drops by one per element); `matchItems` supplies enough. -/
def matchItemsAux : Nat → List Char → Bool
  | 0, _ => false
  | fuel + 1, s =>
    if (s.takeWhile isDigitCh).isEmpty then false
    else
      match skipSp (s.dropWhile isDigitCh) with
      | [] => false
      | c :: r2 =>
        if c = ',' then matchItemsAux fuel (skipSp r2)
        else if c = '\x7d' then (skipSp r2).isEmpty
        else false

/-- Each recursion step of `matchItemsAux` consumes at least a digit and a
comma, so `s.length + 1` fuel is never exhausted. -/
def matchItems (s : List Char) : Bool := matchItemsAux (s.length + 1) s

/-- The regex check of `intset_in` (src/intset.c:87,94): does the input
match `^ *\{ *(( *[0-9]+ *, *)* *[0-9]+ *)? *\} *$`?  Transcribed as a
deterministic matcher (digits, `,`, `}` and the space are disjoint, so the
regex's language admits one). -/
def grammarMatch (s : List Char) : Bool :=
  match skipSp s with
  | [] => false
  | c :: r =>
    if c = '\x7b' then
      match skipSp r with
      | [] => false
      | c2 :: r2 =>
        if c2 = '\x7d' then (skipSp r2).isEmpty
        else matchItems (c2 :: r2)
    else false

/-- The scanning loop of `intset_in` (src/intset.c:108-121), threading the
accumulator `curr_num` (uint32: each step is taken `% 2^32`), the `flag`,
and the tree.  A digit extends the run; the first non-digit after a run
inserts the accumulated value.  A run still open when the string ends is
dropped, exactly as in the source. -/
def scanTree : List Char → Nat → Bool → Tree → Tree
  | [], _, _, t => t
  | c :: r, cur, flag, t =>
    if isDigitCh c then scanTree r ((cur * 10 + (c.toNat - 48)) % U32) true t
    else if flag then scanTree r 0 false (insertNode cur t)
    else scanTree r cur flag t

/-- The sequence of values the scan inserts, in insertion order. -/
def scanNums : List Char → Nat → Bool → List Nat
  | [], _, _ => []
  | c :: r, cur, flag =>
    if isDigitCh c then scanNums r ((cur * 10 + (c.toNat - 48)) % U32) true
    else if flag then cur :: scanNums r 0 false
    else scanNums r cur flag

/-- `intset_in` (src/intset.c:71): reject unless the regex matches (the
`InvalidSyntax` error, modelled as `none`), then scan the digit runs into a
fresh tree and flatten it in order. -/
def intset_in (s : List Char) : Option (List Nat) :=
  if grammarMatch s then some (treeToArr (scanTree s 0 false nil)) else none

/-- Decimal digit character (what `psprintf("%u", ...)` emits digit by
digit). -/
def digitChar (d : Nat) : Char := Char.ofNat (48 + d)

/-- Decimal representation of `n`, most significant digit first; fuelled so
that it computes by kernel reduction (`n + 1` fuel always suffices). -/
def natToCharsAux : Nat → Nat → List Char
  | 0, _ => []
  | fuel + 1, n =>
    if n < 10 then [digitChar n]
    else natToCharsAux fuel (n / 10) ++ [digitChar (n % 10)]

/-- The decimal text of one element, as produced by `psprintf("%u", n)`
(src/intset.c:181). -/
def natToChars (n : Nat) : List Char := natToCharsAux (n + 1) n

/-- The comma-terminated body written by the loop of `intset_out`
(src/intset.c:180-188): for each element, the text of `psprintf("%u,", e)`
truncated to digit-count-plus-one characters (the digit count is computed
in C via `log10`, modelled exactly), appended in order. -/
def renderBody (v : List Nat) : List Char :=
  (v.map (fun n => natToChars n ++ [','])).flatten

/-- `intset_out` (src/intset.c:144): `"{}"` for the empty set; otherwise
write `'{'`, then the comma-terminated body, and finally overwrite the last
comma with `'}'` (src/intset.c:190), i.e. drop the body's last character. -/
def intset_out (v : List Nat) : List Char :=
  if v.length = 0 then ['\x7b', '\x7d']
  else '\x7b' :: ((renderBody v).dropLast ++ ['\x7d'])

/-!  Specification-side reference functions (used only to state claims, not
part of the embedding of the source). -/

/-- Insert into a strictly sorted list, dropping duplicates. -/
def sdInsert (x : Nat) : List Nat → List Nat
  | [] => [x]
  | y :: ys => if x < y then x :: y :: ys else if x = y then y :: ys else y :: sdInsert x ys

/-- Sort a list ascending and collapse duplicates. -/
def sortDedup (l : List Nat) : List Nat := l.foldl (fun acc x => sdInsert x acc) []

/-- Decimal value of a digit run, accumulated left-to-right in base 10
with no modulus. -/
def decVal (r : List Char) : Nat := r.foldl (fun a c => a * 10 + (c.toNat - 48)) 0

/-- The maximal digit runs of a text, left to right.  Fuelled so that it
computes by kernel reduction; `digitRuns` supplies enough fuel. -/
def digitRunsAux : Nat → List Char → List (List Char)
  | 0, _ => []
  | _ + 1, [] => []
  | fuel + 1, c :: rest =>
    if isDigitCh c then
      (c :: rest.takeWhile isDigitCh) :: digitRunsAux fuel (rest.dropWhile isDigitCh)
    else digitRunsAux fuel rest

/-- The maximal digit runs of a text. -/
def digitRuns (s : List Char) : List (List Char) := digitRunsAux (s.length + 1) s

/-- `a ⊇ b` as the specification states it: `false` straight away when
`a.count < b.count`, else every element of `b` is an element of `a`. -/
def specContainsAll (a b : List Nat) : Bool :=
  if a.length < b.length then false else decide (∀ x ∈ b, x ∈ a)

/-- The symmetric difference as the specification states it: the elements
of `a` absent from `b` together with the elements of `b` absent from `a`,
in canonical order. -/
def specSymmDiff (a b : List Nat) : List Nat :=
  sortDedup (a.filter (fun x => decide (x ∉ b)) ++ b.filter (fun x => decide (x ∉ a)))

/-!  Basic facts about the tree operations. -/

theorem treeToArr_left_rotate (t : Tree) : treeToArr (left_rotate t) = treeToArr t := by
  cases t with
  | nil => rfl
  | node d l r =>
    cases r with
    | nil => rfl
    | node rd rl rr => simp [left_rotate, treeToArr]

theorem treeToArr_right_rotate (t : Tree) : treeToArr (right_rotate t) = treeToArr t := by
  cases t with
  | nil => rfl
  | node d l r =>
    cases l with
    | nil => rfl
    | node ld ll lr => simp [right_rotate, treeToArr]

theorem treeToArr_rebalance (n : Nat) (t : Tree) :
    treeToArr (rebalance n t) = treeToArr t := by
  cases t with
  | nil => rfl
  | node d l r =>
    simp only [rebalance]
    split
    · split
      · split
        · rw [treeToArr_right_rotate]
        · rw [treeToArr_right_rotate]
          simp [treeToArr, treeToArr_left_rotate]
      · rfl
    · split
      · split
        · split
          · rw [treeToArr_left_rotate]
          · rw [treeToArr_left_rotate]
            simp [treeToArr, treeToArr_right_rotate]
        · rfl
      · rfl

theorem mem_treeToArr_insertNode {x n : Nat} :
    ∀ t : Tree, x ∈ treeToArr (insertNode n t) → x = n ∨ x ∈ treeToArr t := by
  intro t
  induction t with
  | nil => simp [insertNode, treeToArr]
  | node d l r ihl ihr =>
    intro hx
    rw [insertNode, treeToArr_rebalance] at hx
    by_cases h1 : n > d
    · simp only [if_pos h1, treeToArr, List.mem_append, List.mem_cons] at hx
      rcases hx with h | h | h
      · right; simp [treeToArr, h]
      · right; simp [treeToArr, h]
      · rcases ihr h with h | h
        · left; exact h
        · right; simp [treeToArr, h]
    · rw [if_neg h1] at hx
      by_cases h2 : n < d
      · simp only [if_pos h2, treeToArr, List.mem_append, List.mem_cons] at hx
        rcases hx with h | h
        · rcases ihl h with h | h
          · left; exact h
          · right; simp [treeToArr, h]
        · right; simp [treeToArr, h]
      · rw [if_neg h2] at hx
        right; exact hx

/-- Binary-search-tree ordering: every key in the left subtree is below the
node's key, every key in the right subtree above it. -/
def ST : Tree → Prop
  | Tree.nil => True
  | Tree.node d l r =>
    (∀ x ∈ treeToArr l, x < d) ∧ (∀ x ∈ treeToArr r, d < x) ∧ ST l ∧ ST r

theorem ST_left_rotate {t : Tree} (h : ST t) : ST (left_rotate t) := by
  cases t with
  | nil => exact h
  | node d l r =>
    cases r with
    | nil => exact h
    | node rd rl rr =>
      obtain ⟨hl, hr, stl, ⟨hrl, hrr, strl, strr⟩⟩ := h
      have hdrd : d < rd := hr rd (by simp [treeToArr])
      refine ⟨?_, ?_, ⟨hl, ?_, stl, strl⟩, strr⟩
      · intro x hx
        simp only [treeToArr, List.mem_append, List.mem_cons] at hx
        rcases hx with h | h | h
        · exact (hl x h).trans hdrd
        · exact h ▸ hdrd
        · exact hrl x h
      · intro x hx
        exact hrr x (by simp [treeToArr, hx])
      · intro x hx
        exact hr x (by simp [treeToArr, hx])

theorem ST_right_rotate {t : Tree} (h : ST t) : ST (right_rotate t) := by
  cases t with
  | nil => exact h
  | node d l r =>
    cases l with
    | nil => exact h
    | node ld ll lr =>
      obtain ⟨hl, hr, ⟨hll, hlr, stll, stlr⟩, str⟩ := h
      have hldd : ld < d := hl ld (by simp [treeToArr])
      refine ⟨hll, ?_, stll, ⟨?_, hr, stlr, str⟩⟩
      · intro x hx
        simp only [treeToArr, List.mem_append, List.mem_cons] at hx
        rcases hx with h | h | h
        · exact hlr x h
        · exact h ▸ hldd
        · exact hldd.trans (hr x h)
      · intro x hx
        exact hl x (by simp [treeToArr, hx])

theorem ST_rebalance {t : Tree} (n : Nat) (h : ST t) : ST (rebalance n t) := by
  cases t with
  | nil => exact h
  | node d l r =>
    simp only [rebalance]
    split
    · split
      · split
        · exact ST_right_rotate h
        · apply ST_right_rotate
          obtain ⟨hl, hr, stl, str⟩ := h
          refine ⟨?_, hr, ST_left_rotate stl, str⟩
          intro x hx
          rw [treeToArr_left_rotate] at hx
          exact hl x hx
      · exact h
    · split
      · split
        · split
          · exact ST_left_rotate h
          · apply ST_left_rotate
            obtain ⟨hl, hr, stl, str⟩ := h
            refine ⟨hl, ?_, stl, ST_right_rotate str⟩
            intro x hx
            rw [treeToArr_right_rotate] at hx
            exact hr x hx
        · exact h
      · exact h

theorem ST_insertNode {n : Nat} : ∀ {t : Tree}, ST t → ST (insertNode n t) := by
  intro t
  induction t with
  | nil => exact fun _ => ⟨by simp [treeToArr], by simp [treeToArr], trivial, trivial⟩
  | node d l r ihl ihr =>
    intro h
    obtain ⟨hl, hr, stl, str⟩ := h
    rw [insertNode]
    apply ST_rebalance
    by_cases h1 : n > d
    · rw [if_pos h1]
      refine ⟨hl, ?_, stl, ihr str⟩
      intro x hx
      rcases mem_treeToArr_insertNode _ hx with h | h
      · exact h ▸ h1
      · exact hr x h
    · rw [if_neg h1]
      by_cases h2 : n < d
      · rw [if_pos h2]
        refine ⟨?_, hr, ihl stl, str⟩
        intro x hx
        rcases mem_treeToArr_insertNode _ hx with h | h
        · exact h ▸ h2
        · exact hl x h
      · rw [if_neg h2]
        exact ⟨hl, hr, stl, str⟩

/-!  Facts about `sdInsert` / `sortDedup`, and the correspondence between
tree insertion and sorted-insert on the in-order traversal. -/

theorem mem_sdInsert {x n : Nat} : ∀ l : List Nat, x ∈ sdInsert n l ↔ x = n ∨ x ∈ l := by
  intro l
  induction l with
  | nil => simp [sdInsert]
  | cons y ys ih =>
    by_cases h1 : n < y
    · simp [sdInsert, if_pos h1]
    · rw [sdInsert, if_neg h1]
      by_cases h2 : n = y
      · subst h2
        simp [List.mem_cons]
      · rw [if_neg h2]
        simp only [List.mem_cons, ih]
        tauto

theorem pairwise_sdInsert {n : Nat} :
    ∀ l : List Nat, List.Pairwise (· < ·) l → List.Pairwise (· < ·) (sdInsert n l) := by
  intro l
  induction l with
  | nil => intro _; simp [sdInsert]
  | cons y ys ih =>
    intro h
    obtain ⟨hy, hys⟩ := List.pairwise_cons.mp h
    by_cases h1 : n < y
    · rw [sdInsert, if_pos h1]
      exact List.pairwise_cons.mpr ⟨fun z hz => by
        rcases List.mem_cons.mp hz with h | h
        · exact h ▸ h1
        · exact h1.trans (hy z h), h⟩
    · rw [sdInsert, if_neg h1]
      by_cases h2 : n = y
      · rw [if_pos h2]; exact h
      · rw [if_neg h2]
        have hyn : y < n := by omega
        refine List.pairwise_cons.mpr ⟨fun z hz => ?_, ih hys⟩
        rcases (mem_sdInsert ys).mp hz with h | h
        · exact h ▸ hyn
        · exact hy z h

theorem pairwise_sortDedup (l : List Nat) : List.Pairwise (· < ·) (sortDedup l) := by
  suffices h : ∀ acc, List.Pairwise (· < ·) acc →
      List.Pairwise (· < ·) (l.foldl (fun acc x => sdInsert x acc) acc) by
    exact h [] (by simp)
  induction l with
  | nil => intro acc h; exact h
  | cons x xs ih =>
    intro acc h
    exact ih _ (pairwise_sdInsert _ h)

theorem mem_sortDedup {x : Nat} (l : List Nat) : x ∈ sortDedup l ↔ x ∈ l := by
  suffices h : ∀ acc, x ∈ l.foldl (fun acc x => sdInsert x acc) acc ↔ x ∈ acc ∨ x ∈ l by
    simpa [sortDedup] using h []
  induction l with
  | nil => intro acc; simp
  | cons y ys ih =>
    intro acc
    rw [List.foldl_cons, ih, mem_sdInsert]
    simp [List.mem_cons]
    tauto

theorem sdInsert_append_lt {n d : Nat} (hnd : n < d) :
    ∀ l r : List Nat, sdInsert n (l ++ d :: r) = sdInsert n l ++ d :: r := by
  intro l r
  induction l with
  | nil => simp [sdInsert, if_pos hnd]
  | cons y ys ih =>
    by_cases h1 : n < y
    · simp [sdInsert, if_pos h1]
    · rw [List.cons_append, sdInsert, if_neg h1, sdInsert, if_neg h1]
      by_cases h2 : n = y
      · simp [if_pos h2]
      · rw [if_neg h2, if_neg h2, ih]
        simp

theorem sdInsert_append_gt {n d : Nat} (hdn : d < n) :
    ∀ (l r : List Nat), (∀ y ∈ l, y < n) →
      sdInsert n (l ++ d :: r) = l ++ d :: sdInsert n r := by
  intro l r
  induction l with
  | nil =>
    intro _
    have h1 : ¬ n < d := by omega
    have h2 : ¬ n = d := by omega
    simp [sdInsert, if_neg h1, if_neg h2]
  | cons y ys ih =>
    intro hl
    have hyn : y < n := hl y (by simp)
    have h1 : ¬ n < y := by omega
    have h2 : ¬ n = y := by omega
    rw [List.cons_append, sdInsert, if_neg h1, if_neg h2,
      ih (fun z hz => hl z (by simp [hz]))]
    simp

theorem sdInsert_append_self {d : Nat} :
    ∀ (l r : List Nat), (∀ y ∈ l, y < d) → sdInsert d (l ++ d :: r) = l ++ d :: r := by
  intro l r
  induction l with
  | nil =>
    intro _
    simp [sdInsert]
  | cons y ys ih =>
    intro hl
    have hyd : y < d := hl y (by simp)
    have h1 : ¬ d < y := by omega
    have h2 : ¬ d = y := by omega
    rw [List.cons_append, sdInsert, if_neg h1, if_neg h2,
      ih (fun z hz => hl z (by simp [hz]))]

/-- On a search tree, tree insertion in-orders to sorted-dedup insertion. -/
theorem treeToArr_insertNode (n : Nat) :
    ∀ t : Tree, ST t → treeToArr (insertNode n t) = sdInsert n (treeToArr t) := by
  intro t
  induction t with
  | nil => simp [insertNode, treeToArr, sdInsert]
  | node d l r ihl ihr =>
    intro h
    obtain ⟨hl, hr, stl, str⟩ := h
    rw [insertNode, treeToArr_rebalance]
    by_cases h1 : n > d
    · rw [if_pos h1]
      simp only [treeToArr]
      rw [ihr str, sdInsert_append_gt h1 _ _ (fun y hy => (hl y hy).trans h1)]
    · rw [if_neg h1]
      by_cases h2 : n < d
      · rw [if_pos h2]
        simp only [treeToArr]
        rw [ihl stl, sdInsert_append_lt h2]
      · rw [if_neg h2]
        have hnd : n = d := by omega
        subst hnd
        simp only [treeToArr]
        rw [sdInsert_append_self _ _ hl]

theorem ST_foldInsert : ∀ (l : List Nat) (t : Tree), ST t → ST (foldInsert l t) := by
  intro l
  induction l with
  | nil => intro t h; exact h
  | cons x xs ih =>
    intro t h
    exact ih _ (ST_insertNode h)

theorem treeToArr_foldInsert :
    ∀ (l : List Nat) (t : Tree), ST t →
      treeToArr (foldInsert l t) = l.foldl (fun acc x => sdInsert x acc) (treeToArr t) := by
  intro l
  induction l with
  | nil => intro t _; rfl
  | cons x xs ih =>
    intro t h
    show treeToArr (foldInsert xs (insertNode x t)) = _
    rw [ih _ (ST_insertNode h), treeToArr_insertNode _ _ h]
    rfl

theorem treeToArr_foldInsert_nil (l : List Nat) :
    treeToArr (foldInsert l Tree.nil) = sortDedup l :=
  treeToArr_foldInsert l Tree.nil trivial

theorem length_treeToArr : ∀ t : Tree, (treeToArr t).length = treeSize t := by
  intro t
  induction t with
  | nil => rfl
  | node d l r ihl ihr => simp [treeToArr, treeSize, ihl, ihr]; omega

/-!  Shapes of the operation loops: every tree an operation builds is a
left fold of `insertNode` over some list of elements. -/

theorem foldInsert_append (a b : List Nat) (t : Tree) :
    foldInsert b (foldInsert a t) = foldInsert (a ++ b) t := by
  simp [foldInsert, List.foldl_append]

theorem insertFoundAux_shape {hay : List Nat} {hs : Nat} :
    ∀ (l : List Nat) (t t' : Tree), insertFoundAux hay hs l t = some t' →
      ∃ sel : List Nat, t' = foldInsert sel t := by
  intro l
  induction l with
  | nil =>
    intro t t' h
    exact ⟨[], by simpa [insertFoundAux] using h.symm⟩
  | cons x xs ih =>
    intro t t' h
    rw [insertFoundAux] at h
    rcases hbs : binarySearch hay 0 (usub1 hs) x with _ | found
    · rw [hbs] at h; exact absurd h (by simp)
    · rw [hbs] at h
      cases found with
      | true =>
        obtain ⟨sel, hsel⟩ := ih _ _ (by simpa using h)
        exact ⟨x :: sel, hsel⟩
      | false =>
        obtain ⟨sel, hsel⟩ := ih _ _ (by simpa using h)
        exact ⟨sel, hsel⟩

theorem insertNotFoundAux_shape {hay : List Nat} {hs : Nat} :
    ∀ (l : List Nat) (t t' : Tree), insertNotFoundAux hay hs l t = some t' →
      ∃ sel : List Nat, t' = foldInsert sel t := by
  intro l
  induction l with
  | nil =>
    intro t t' h
    exact ⟨[], by simpa [insertNotFoundAux] using h.symm⟩
  | cons x xs ih =>
    intro t t' h
    rw [insertNotFoundAux] at h
    rcases hbs : binarySearch hay 0 (usub1 hs) x with _ | found
    · rw [hbs] at h; exact absurd h (by simp)
    · rw [hbs] at h
      cases found with
      | true =>
        obtain ⟨sel, hsel⟩ := ih _ _ (by simpa using h)
        exact ⟨sel, hsel⟩
      | false =>
        obtain ⟨sel, hsel⟩ := ih _ _ (by simpa using h)
        exact ⟨x :: sel, hsel⟩

theorem pairwise_treeToArr_foldInsert (l : List Nat) :
    List.Pairwise (· < ·) (treeToArr (foldInsert l Tree.nil)) := by
  rw [treeToArr_foldInsert_nil]
  exact pairwise_sortDedup l

/-- The scan that threads the tree is the fold of `insertNode` over the
sequence of scanned values. -/
theorem scanTree_eq_foldInsert :
    ∀ (s : List Char) (cur : Nat) (flag : Bool) (t : Tree),
      scanTree s cur flag t = foldInsert (scanNums s cur flag) t := by
  intro s
  induction s with
  | nil => intro cur flag t; rfl
  | cons c r ih =>
    intro cur flag t
    rw [scanTree, scanNums]
    by_cases h1 : isDigitCh c
    · rw [if_pos h1, if_pos h1, ih]
    · rw [if_neg h1, if_neg h1]
      by_cases h2 : flag
      · rw [if_pos h2, if_pos h2, ih]
        rfl
      · rw [if_neg h2, if_neg h2, ih]

/-!  Claim C1, C2, C3, C6, C7, C10. -/

/-- C1: the claim says `ContainsAll(a, b)` returns false immediately only
when `a.count < b.count` and otherwise decides `a ⊇ b`.  The code compares
`a.count` with `4 * b.count` (the missing `/4` at src/intset.c:311), so on
`a = {1,2,3}`, `b = {3}` — where `a.count ≥ b.count` and `a ⊇ b`, so the
claim demands `true` — the code returns `false`. -/
theorem c1_contain_all_size_bug :
    intset_contain_all [1, 2, 3] [3] = some false ∧
      specContainsAll [1, 2, 3] [3] = true := by
  decide

/-- C2: the claim says every operation but Parse reads only in-bounds
indices and always returns.  Two counterexamples: `Contains({5}, 3)` sends
`high` to `2^32 - 1` via the unsigned `mid - 1` underflow and reads index
`2147483647` of a one-element array, and `Difference({1}, {})` calls
`binarySearch(b, 0, 0 - 1, 1)` on an empty array (no emptiness check at
src/intset.c:533); `none` marks the out-of-bounds read. -/
theorem c2_out_of_bounds_read :
    intset_contains 3 [5] = none ∧ intset_diff [1] [] = none := by
  decide

/-- C3: the claim says `SymmetricDifference(a, b)` returns empty exactly
when `a = b` pointwise and otherwise the elements in exactly one operand.
The pretest `numsEqual(anums, bnums, asize)` (src/intset.c:467) compares
only the first `a.count` positions, so for `a = {}`, `b = {1}` the code
returns the empty set although the symmetric difference is `{1}`. -/
theorem c3_disjunction_pretest_bug :
    intset_disjunctn [] [1] = some [] ∧ specSymmDiff [] [1] = [1] := by
  decide

/-- C7: Parse fails (with the single `InvalidSyntax` error, modelled as
`none`) exactly when the input does not match the regex
`^ *\{ *(( *[0-9]+ *, *)* *[0-9]+ *)? *\} *$`, and succeeds on a match. -/
theorem c7_parse_error_iff_grammar (s : List Char) :
    intset_in s = none ↔ grammarMatch s = false := by
  cases hg : grammarMatch s <;> simp [intset_in, hg]

/-- C10: with an empty first operand the `numsEqual` pretest of
`intset_disjunctn` compares zero positions and vacuously succeeds, so
`SymmetricDifference({}, b)` returns the empty Value for every `b`. -/
theorem c10_disjunction_empty_left (b : List Nat) :
    intset_disjunctn [] b = some [] := rfl

/-- C6: every Value produced by Parse, Union, Intersection, Difference or
SymmetricDifference is canonical: strictly increasing (hence duplicate
free), and the element array of a flattened tree has exactly `treeSize`
elements (the stored count is `VARSIZE/4`, i.e. the array length, by
construction). -/
theorem c6_canonical_invariant :
    (∀ (s : List Char) (v : List Nat), intset_in s = some v → List.Pairwise (· < ·) v)
    ∧ (∀ a b : List Nat, List.Pairwise (· < ·) (intset_union a b))
    ∧ (∀ a b v : List Nat, intset_intersectn a b = some v → List.Pairwise (· < ·) v)
    ∧ (∀ a b v : List Nat, intset_diff a b = some v → List.Pairwise (· < ·) v)
    ∧ (∀ a b v : List Nat, intset_disjunctn a b = some v → List.Pairwise (· < ·) v)
    ∧ (∀ t : Tree, (treeToArr t).length = treeSize t) := by
  refine ⟨?_, ?_, ?_, ?_, ?_, length_treeToArr⟩
  · intro s v h
    rw [intset_in] at h
    by_cases g : grammarMatch s = true
    · rw [if_pos g, Option.some_inj] at h
      subst h
      rw [scanTree_eq_foldInsert]
      exact pairwise_treeToArr_foldInsert _
    · rw [if_neg g] at h
      exact absurd h (by simp)
  · intro a b
    rw [intset_union]
    split
    · simp
    · rw [foldInsert_append]
      exact pairwise_treeToArr_foldInsert _
  · intro a b v h
    rw [intset_intersectn] at h
    split at h
    · rw [Option.some_inj] at h
      subst h
      simp
    · split at h <;>
      · obtain ⟨t', ht', hv⟩ := Option.map_eq_some'.mp h
        obtain ⟨sel, rfl⟩ := insertFoundAux_shape _ _ _ ht'
        subst hv
        exact pairwise_treeToArr_foldInsert _
  · intro a b v h
    rw [intset_diff] at h
    split at h
    · rw [Option.some_inj] at h
      subst h
      simp
    · obtain ⟨t', ht', hv⟩ := Option.map_eq_some'.mp h
      obtain ⟨sel, rfl⟩ := insertNotFoundAux_shape _ _ _ ht'
      subst hv
      exact pairwise_treeToArr_foldInsert _
  · intro a b v h
    rw [intset_disjunctn] at h
    rcases hne : numsEqual a b a.length with _ | eqf
    · rw [hne] at h
      exact absurd h (by simp)
    · rw [hne] at h
      cases eqf with
      | true =>
        rw [Option.some_inj] at h
        subst h
        simp
      | false =>
        rcases hfirst : insertNotFoundAux b b.length a Tree.nil with _ | t1
        · rw [hfirst] at h
          exact absurd h (by simp)
        · rw [hfirst] at h
          obtain ⟨t2, ht2, hv⟩ := Option.map_eq_some'.mp h
          obtain ⟨sel1, rfl⟩ := insertNotFoundAux_shape _ _ _ hfirst
          obtain ⟨sel2, rfl⟩ := insertNotFoundAux_shape _ _ _ ht2
          subst hv
          rw [foldInsert_append]
          exact pairwise_treeToArr_foldInsert _

/-- Witness for C6 at concrete inputs: the hypotheses of the conjuncts are
established by evaluation and the conclusions follow by the theorem. -/
theorem c6_canonical_invariant_witness :
    intset_in ("{3, 1, 2, 1}".toList) = some [1, 2, 3]
    ∧ List.Pairwise (· < ·) [1, 2, 3]
    ∧ intset_disjunctn [1, 2] [1, 3] = some [2, 3]
    ∧ List.Pairwise (· < ·) [2, 3] :=
  ⟨by decide, c6_canonical_invariant.1 ("{3, 1, 2, 1}".toList) [1, 2, 3] (by decide),
   by decide, c6_canonical_invariant.2.2.2.2.1 [1, 2] [1, 3] [2, 3] (by decide)⟩

/-!  The matcher accepts only strings that end in a closing brace or a
space; hence no accepted string ends mid-digit-run. -/

theorem length_dropWhile_le (p : Char → Bool) :
    ∀ s : List Char, (s.dropWhile p).length ≤ s.length := by
  intro s
  induction s with
  | nil => simp
  | cons c r ih =>
    rw [List.dropWhile_cons]
    split
    · exact ih.trans (by simp)
    · simp

theorem skipSp_suffix : ∀ s : List Char, skipSp s <:+ s := by
  intro s
  induction s with
  | nil => exact List.suffix_refl _
  | cons c r ih =>
    rw [skipSp]
    split
    · exact ih.trans (List.suffix_cons _ _)
    · exact List.suffix_refl _

theorem skipSp_nil_all_space : ∀ s : List Char, skipSp s = [] → ∀ c ∈ s, c = ' ' := by
  intro s
  induction s with
  | nil => intro _ c hc; cases hc
  | cons x r ih =>
    intro h c hc
    rw [skipSp] at h
    split at h
    · rename_i hx
      rcases List.mem_cons.mp hc with h1 | h1
      · exact h1.trans hx
      · exact ih h c h1
    · exact absurd h (by simp)

theorem dropWhile_suffix (p : Char → Bool) (s : List Char) : s.dropWhile p <:+ s :=
  ⟨s.takeWhile p, List.takeWhile_append_dropWhile p s⟩

theorem matchItemsAux_close :
    ∀ (fuel : Nat) (s : List Char), matchItemsAux fuel s = true →
      ∃ r2 : List Char, ('\x7d' :: r2) <:+ s ∧ skipSp r2 = [] := by
  intro fuel
  induction fuel with
  | zero => intro s h; exact absurd h (by simp [matchItemsAux])
  | succ f ih =>
    intro s h
    rw [matchItemsAux] at h
    split at h
    · exact absurd h (by simp)
    · split at h
      · exact absurd h (by simp)
      · rename_i c r2 heq
        have hsuf2 : (c :: r2) <:+ s := by
          rw [← heq]
          exact (skipSp_suffix _).trans (dropWhile_suffix _ _)
        split at h
        · obtain ⟨r3, h3, hsp⟩ := ih _ h
          exact ⟨r3, ((h3.trans (skipSp_suffix r2)).trans
            ((List.suffix_cons c r2).trans hsuf2)), hsp⟩
        · split at h
          · rename_i hc2
            subst hc2
            exact ⟨r2, hsuf2, List.isEmpty_iff.mp h⟩
          · exact absurd h (by simp)

theorem grammarMatch_close {s : List Char} (h : grammarMatch s = true) :
    ∃ r2 : List Char, ('\x7d' :: r2) <:+ s ∧ skipSp r2 = [] := by
  rw [grammarMatch] at h
  split at h
  · exact absurd h (by simp)
  · rename_i c r heq
    have hsuf : (c :: r) <:+ s := by rw [← heq]; exact skipSp_suffix s
    split at h
    · split at h
      · exact absurd h (by simp)
      · rename_i c2 r2 heq2
        have hsuf2 : (c2 :: r2) <:+ s := by
          refine List.IsSuffix.trans ?_ ((List.suffix_cons c r).trans hsuf)
          rw [← heq2]
          exact skipSp_suffix r
        split at h
        · rename_i hc2
          subst hc2
          exact ⟨r2, hsuf2, List.isEmpty_iff.mp h⟩
        · obtain ⟨r3, h3, hsp⟩ := matchItemsAux_close _ _ h
          exact ⟨r3, h3.trans hsuf2, hsp⟩
    · exact absurd h (by simp)

theorem grammarMatch_getLast {s : List Char} (h : grammarMatch s = true) :
    ∀ c, s.getLast? = some c → c = '\x7d' ∨ c = ' ' := by
  obtain ⟨r2, ⟨pre, hpre⟩, hsp⟩ := grammarMatch_close h
  intro c hc
  rw [← hpre, List.getLast?_append_of_ne_nil pre (by simp)] at hc
  cases r2 with
  | nil =>
    rw [List.getLast?_singleton, Option.some_inj] at hc
    exact Or.inl hc.symm
  | cons x xs =>
    right
    have hne : x :: xs ≠ [] := by simp
    rw [List.getLast?_cons_cons, List.getLast?_eq_getLast _ hne, Option.some_inj] at hc
    rw [← hc]
    exact skipSp_nil_all_space _ hsp _ (List.getLast_mem hne)

/-- A grammar-matching text does not end inside a digit run. -/
theorem grammarMatch_last_not_digit {s : List Char} (h : grammarMatch s = true) :
    ∀ c, s.getLast? = some c → isDigitCh c = false := by
  intro c hc
  rcases grammarMatch_getLast h c hc with h1 | h1 <;> subst h1 <;> decide

/-!  The scan equals the digit runs, each reduced modulo `2^32`. -/

/-- One step of the scanner's uint32 accumulator, folded over a run with
seed `cur`. -/
def mfold (cur : Nat) (p : List Char) : Nat :=
  p.foldl (fun a c => (a * 10 + (c.toNat - 48)) % U32) cur

theorem getLast_cons_transfer {c : Char} {r : List Char}
    (hnd : ∀ x, (c :: r).getLast? = some x → isDigitCh x = false) :
    ∀ x, r.getLast? = some x → isDigitCh x = false := by
  intro x hx
  cases r with
  | nil => cases hx
  | cons y ys => exact hnd x (by rw [List.getLast?_cons_cons]; exact hx)

theorem head_digit_tail_ne_nil {c : Char} {r : List Char} (hd : isDigitCh c = true)
    (hnd : ∀ x, (c :: r).getLast? = some x → isDigitCh x = false) : r ≠ [] := by
  intro hr
  subst hr
  have h1 := hnd c (List.getLast?_singleton c)
  rw [hd] at h1
  simp at h1

theorem digitRunsAux_congr :
    ∀ (f g : Nat) (s : List Char), s.length < f → s.length < g →
      digitRunsAux f s = digitRunsAux g s := by
  intro f
  induction f with
  | zero => intro g s hf _; exact absurd hf (by omega)
  | succ f ih =>
    intro g s hf hg
    cases g with
    | zero => exact absurd hg (by omega)
    | succ g =>
      cases s with
      | nil => rfl
      | cons c r =>
        rw [digitRunsAux, digitRunsAux]
        have hr : r.length < f := by simpa using hf
        have hrg : r.length < g := by simpa using hg
        by_cases hd : isDigitCh c = true
        · rw [if_pos hd, if_pos hd]
          have h1 := length_dropWhile_le isDigitCh r
          rw [ih g (r.dropWhile isDigitCh) (by omega) (by omega)]
        · rw [if_neg hd, if_neg hd]
          exact ih g r hr hrg

theorem digitRuns_cons_nondigit {c : Char} (hc : isDigitCh c = false) (r : List Char) :
    digitRuns (c :: r) = digitRuns r := by
  show digitRunsAux (r.length + 1 + 1) (c :: r) = digitRunsAux (r.length + 1) r
  rw [digitRunsAux, if_neg (by simp [hc])]

theorem digitRuns_cons_digit {c : Char} (hc : isDigitCh c = true) (r : List Char) :
    digitRuns (c :: r) =
      (c :: r.takeWhile isDigitCh) :: digitRuns (r.dropWhile isDigitCh) := by
  show digitRunsAux (r.length + 1 + 1) (c :: r) = _
  rw [digitRunsAux, if_pos hc]
  have h1 := length_dropWhile_le isDigitCh r
  rw [digitRunsAux_congr (r.length + 1) ((r.dropWhile isDigitCh).length + 1)
    (r.dropWhile isDigitCh) (by omega) (by omega)]
  rfl

theorem scanNums_flag_run :
    ∀ s : List Char, s ≠ [] → (∀ c, s.getLast? = some c → isDigitCh c = false) →
      ∀ cur : Nat,
        scanNums s cur true =
          mfold cur (s.takeWhile isDigitCh) :: scanNums (s.dropWhile isDigitCh) 0 false := by
  intro s
  induction s with
  | nil => intro h; exact absurd rfl h
  | cons c r ih =>
    intro _ hnd cur
    by_cases hd : isDigitCh c = true
    · have hrne : r ≠ [] := head_digit_tail_ne_nil hd hnd
      rw [scanNums, if_pos hd, ih hrne (getLast_cons_transfer hnd) _,
        List.takeWhile_cons, if_pos hd, List.dropWhile_cons, if_pos hd]
      rfl
    · rw [scanNums, if_neg hd, if_pos rfl, List.takeWhile_cons, if_neg hd,
        List.dropWhile_cons, if_neg hd]
      show cur :: scanNums r 0 false = mfold cur [] :: scanNums (c :: r) 0 false
      rw [scanNums, if_neg hd]
      rfl

theorem scanNums_runs_aux :
    ∀ (n : Nat) (s : List Char), s.length ≤ n →
      (∀ c, s.getLast? = some c → isDigitCh c = false) →
      scanNums s 0 false = (digitRuns s).map (mfold 0) := by
  intro n
  induction n with
  | zero =>
    intro s hs _
    have h0 : s = [] := List.length_eq_zero.mp (Nat.le_zero.mp hs)
    subst h0
    rfl
  | succ n ih =>
    intro s hs hnd
    cases s with
    | nil => rfl
    | cons c r =>
      by_cases hd : isDigitCh c = true
      · have hrne : r ≠ [] := head_digit_tail_ne_nil hd hnd
        rw [scanNums, if_pos hd,
          scanNums_flag_run r hrne (getLast_cons_transfer hnd) _,
          digitRuns_cons_digit hd, List.map_cons]
        congr 1
        apply ih
        · have h1 := length_dropWhile_le isDigitCh r
          have h2 : r.length ≤ n := by simpa using hs
          omega
        · intro c2 hc2
          have hsub : r.dropWhile isDigitCh ≠ [] := by
            intro hh
            rw [hh] at hc2
            cases hc2
          apply getLast_cons_transfer hnd
          rw [← List.takeWhile_append_dropWhile isDigitCh r,
            List.getLast?_append_of_ne_nil _ hsub]
          exact hc2
      · have hd2 : isDigitCh c = false := by simpa using hd
        rw [scanNums, if_neg hd, if_neg (by simp), digitRuns_cons_nondigit hd2]
        exact ih r (by simpa using hs) (getLast_cons_transfer hnd)

theorem mfold_mod :
    ∀ (p : List Char) (cur : Nat),
      mfold (cur % U32) p = (p.foldl (fun a c => a * 10 + (c.toNat - 48)) cur) % U32 := by
  intro p
  induction p with
  | nil => intro cur; rfl
  | cons c p ih =>
    intro cur
    show mfold (((cur % U32) * 10 + (c.toNat - 48)) % U32) p = _
    have hstep : ((cur % U32) * 10 + (c.toNat - 48)) % U32
        = (cur * 10 + (c.toNat - 48)) % U32 := by
      unfold U32
      omega
    rw [hstep, ih (cur * 10 + (c.toNat - 48))]
    rfl

theorem mfold_eq_decVal (p : List Char) : mfold 0 p = decVal p % U32 := by
  have h := mfold_mod p 0
  rw [Nat.zero_mod] at h
  exact h

/-- The scan of a grammar-matching text yields exactly the values of its
digit runs, each reduced modulo `2^32`, in textual order. -/
theorem scanNums_eq_runs {s : List Char} (h : grammarMatch s = true) :
    scanNums s 0 false = (digitRuns s).map (fun r => decVal r % U32) := by
  rw [scanNums_runs_aux s.length s le_rfl (grammarMatch_last_not_digit h)]
  have hf : mfold 0 = fun r => decVal r % U32 := funext mfold_eq_decVal
  rw [hf]

/-- C9: for every digit run of a grammar-valid input, Parse accumulates the
run left-to-right in base 10 into an unsigned 32-bit accumulator, so the
element produced for each run is the run's decimal value modulo `2^32`
(values past the 32-bit range wrap silently; no error is raised). -/
theorem c9_accumulator_wraps (s : List Char) (h : grammarMatch s = true) :
    scanNums s 0 false = (digitRuns s).map (fun r => decVal r % U32) :=
  scanNums_eq_runs h

/-- Witness for C9: `"{4294967297}"` parses, and the single run
`4294967297 = 2^32 + 1` is scanned as `1`. -/
theorem c9_accumulator_wraps_witness :
    grammarMatch ("{4294967297}".toList) = true
    ∧ scanNums ("{4294967297}".toList) 0 false = [1] :=
  ⟨by decide, (c9_accumulator_wraps ("{4294967297}".toList) (by decide)).trans (by decide)⟩

/-- C5: on every grammar-matching text, Parse succeeds with exactly the set
of 32-bit values of the text's digit runs — duplicates collapsed, strictly
ascending; in particular `Parse("{3, 1, 2, 1}")` is the Value `[1,2,3]`. -/
theorem c5_parse_collects_runs :
    (∀ s : List Char, grammarMatch s = true →
      ∃ w : List Nat, intset_in s = some w
        ∧ (∀ x : Nat, x ∈ w ↔ x ∈ (digitRuns s).map (fun r => decVal r % U32))
        ∧ List.Pairwise (· < ·) w)
    ∧ intset_in ("{3, 1, 2, 1}".toList) = some [1, 2, 3] := by
  constructor
  · intro s h
    refine ⟨sortDedup (scanNums s 0 false), ?_, ?_, pairwise_sortDedup _⟩
    · rw [intset_in, if_pos h, scanTree_eq_foldInsert, treeToArr_foldInsert_nil]
    · intro x
      rw [mem_sortDedup, scanNums_eq_runs h]
  · decide

/-- Witness for C5 at a concrete grammar-matching input. -/
theorem c5_parse_collects_runs_witness :
    grammarMatch ("{ 12 , 7 }".toList) = true
    ∧ ∃ w : List Nat, intset_in ("{ 12 , 7 }".toList) = some w
        ∧ (∀ x : Nat,
            x ∈ w ↔ x ∈ (digitRuns ("{ 12 , 7 }".toList)).map (fun r => decVal r % U32))
        ∧ List.Pairwise (· < ·) w :=
  ⟨by decide, c5_parse_collects_runs.1 ("{ 12 , 7 }".toList) (by decide)⟩

/-!  Decimal rendering of one element. -/

theorem natToCharsAux_congr :
    ∀ (f g n : Nat), n < f → n < g → natToCharsAux f n = natToCharsAux g n := by
  intro f
  induction f with
  | zero => intro g n hf _; exact absurd hf (by omega)
  | succ f ih =>
    intro g n hf hg
    cases g with
    | zero => exact absurd hg (by omega)
    | succ g =>
      rw [natToCharsAux, natToCharsAux]
      by_cases h : n < 10
      · rw [if_pos h, if_pos h]
      · rw [if_neg h, if_neg h]
        have hdiv : n / 10 < n := Nat.div_lt_self (by omega) (by omega)
        rw [ih g (n / 10) (by omega) (by omega)]

theorem natToChars_step (n : Nat) :
    natToChars n = if n < 10 then [digitChar n]
      else natToChars (n / 10) ++ [digitChar (n % 10)] := by
  rw [natToChars, natToCharsAux]
  by_cases h : n < 10
  · rw [if_pos h, if_pos h]
  · rw [if_neg h, if_neg h]
    have hdiv : n / 10 < n := Nat.div_lt_self (by omega) (by omega)
    rw [natToCharsAux_congr n (n / 10 + 1) (n / 10) (by omega) (by omega)]
    rfl

theorem digitChar_toNat {d : Nat} (h : d < 10) : (digitChar d).toNat = 48 + d := by
  interval_cases d <;> decide

theorem isDigitCh_digitChar {d : Nat} (h : d < 10) : isDigitCh (digitChar d) = true := by
  interval_cases d <;> decide

theorem natToChars_ne_nil (n : Nat) : natToChars n ≠ [] := by
  rw [natToChars_step]
  split
  · simp
  · simp

theorem natToChars_digits (n : Nat) : ∀ c ∈ natToChars n, isDigitCh c = true := by
  induction n using Nat.strong_induction_on with
  | _ n ih =>
    rw [natToChars_step]
    split
    · rename_i h
      intro c hc
      rw [List.mem_singleton] at hc
      subst hc
      exact isDigitCh_digitChar h
    · rename_i h
      intro c hc
      rcases List.mem_append.mp hc with h1 | h1
      · exact ih (n / 10) (Nat.div_lt_self (by omega) (by omega)) c h1
      · rw [List.mem_singleton] at h1
        subst h1
        exact isDigitCh_digitChar (Nat.mod_lt n (by omega))

theorem decVal_append_singleton (l : List Char) (c : Char) :
    decVal (l ++ [c]) = decVal l * 10 + (c.toNat - 48) := by
  show (l ++ [c]).foldl _ 0 = _
  rw [List.foldl_append]
  rfl

theorem decVal_natToChars (n : Nat) : decVal (natToChars n) = n := by
  induction n using Nat.strong_induction_on with
  | _ n ih =>
    rw [natToChars_step]
    split
    · rename_i h
      show 0 * 10 + ((digitChar n).toNat - 48) = n
      rw [digitChar_toNat h]
      omega
    · rename_i h
      rw [decVal_append_singleton, ih (n / 10) (Nat.div_lt_self (by omega) (by omega)),
        digitChar_toNat (Nat.mod_lt n (by omega))]
      omega

theorem isDigitCh_ne {c : Char} (h : isDigitCh c = true) :
    c ≠ ' ' ∧ c ≠ '\x7d' := by
  constructor
  · intro hc
    subst hc
    exact absurd h (by decide)
  · intro hc
    subst hc
    exact absurd h (by decide)

/-!  Shape of the rendered text. -/

theorem renderBody_cons (n : Nat) (rest : List Nat) :
    renderBody (n :: rest) = natToChars n ++ ',' :: renderBody rest := by
  simp [renderBody]

theorem renderBody_ne_nil (n : Nat) (rest : List Nat) : renderBody (n :: rest) ≠ [] := by
  rw [renderBody_cons]
  simp

theorem dropLast_renderBody_single (n : Nat) :
    (renderBody [n]).dropLast = natToChars n := by
  rw [renderBody_cons]
  show (natToChars n ++ [',']).dropLast = _
  exact List.dropLast_concat

theorem dropLast_renderBody_cons (n m : Nat) (rest2 : List Nat) :
    (renderBody (n :: m :: rest2)).dropLast =
      natToChars n ++ ',' :: (renderBody (m :: rest2)).dropLast := by
  rw [renderBody_cons]
  have hne : renderBody (m :: rest2) ≠ [] := renderBody_ne_nil _ _
  rw [List.dropLast_append_of_ne_nil _ (by simp), List.dropLast_cons_of_ne_nil hne]

theorem skipSp_cons_ne {c : Char} (h : ¬ c = ' ') (r : List Char) :
    skipSp (c :: r) = c :: r := by
  rw [skipSp, if_neg h]

theorem takeWhile_digits_append :
    ∀ (p : List Char), (∀ x ∈ p, isDigitCh x = true) →
      ∀ {c : Char}, isDigitCh c = false → ∀ (r : List Char),
        (p ++ c :: r).takeWhile isDigitCh = p ∧ (p ++ c :: r).dropWhile isDigitCh = c :: r := by
  intro p
  induction p with
  | nil =>
    intro _ c hc r
    constructor
    · rw [List.nil_append, List.takeWhile_cons, if_neg (by simp [hc])]
    · rw [List.nil_append, List.dropWhile_cons, if_neg (by simp [hc])]
  | cons x xs ih =>
    intro hp c hc r
    have hx : isDigitCh x = true := hp x (by simp)
    obtain ⟨h1, h2⟩ := ih (fun y hy => hp y (by simp [hy])) hc r
    constructor
    · rw [List.cons_append, List.takeWhile_cons, if_pos hx, h1]
    · rw [List.cons_append, List.dropWhile_cons, if_pos hx, h2]

theorem digitRuns_digits_prefix :
    ∀ (p : List Char), p ≠ [] → (∀ x ∈ p, isDigitCh x = true) →
      ∀ {c : Char}, isDigitCh c = false → ∀ (r : List Char),
        digitRuns (p ++ c :: r) = p :: digitRuns (c :: r) := by
  intro p hne hp c hc r
  obtain ⟨c0, cs, rfl⟩ : ∃ c0 cs, p = c0 :: cs := by
    cases p with
    | nil => exact absurd rfl hne
    | cons a as => exact ⟨a, as, rfl⟩
  have hc0 : isDigitCh c0 = true := hp c0 (by simp)
  rw [List.cons_append, digitRuns_cons_digit hc0]
  obtain ⟨h1, h2⟩ := takeWhile_digits_append cs (fun y hy => hp y (by simp [hy])) hc r
  rw [h1, h2]

theorem render_tail_head_digit (v : List Nat) (hv : v ≠ []) :
    ∃ (c0 : Char) (cs : List Char),
      (renderBody v).dropLast ++ ['\x7d'] = c0 :: cs ∧ isDigitCh c0 = true := by
  obtain ⟨n, rest, rfl⟩ : ∃ n rest, v = n :: rest := by
    cases v with
    | nil => exact absurd rfl hv
    | cons a as => exact ⟨a, as, rfl⟩
  obtain ⟨c0, t, hct⟩ : ∃ c0 t, natToChars n = c0 :: t := by
    cases hnc : natToChars n with
    | nil => exact absurd hnc (natToChars_ne_nil n)
    | cons a as => exact ⟨a, as, rfl⟩
  have hc0 : isDigitCh c0 = true := natToChars_digits n c0 (by rw [hct]; simp)
  cases rest with
  | nil =>
    rw [dropLast_renderBody_single, hct]
    exact ⟨c0, t ++ ['\x7d'], by simp, hc0⟩
  | cons m rest2 =>
    rw [dropLast_renderBody_cons, hct]
    exact ⟨c0, t ++ ',' :: (renderBody (m :: rest2)).dropLast ++ ['\x7d'], by simp, hc0⟩

theorem matchItemsAux_render :
    ∀ (v : List Nat), v ≠ [] → ∀ (f : Nat),
      ((renderBody v).dropLast ++ ['\x7d']).length < f →
      matchItemsAux f ((renderBody v).dropLast ++ ['\x7d']) = true := by
  intro v
  induction v with
  | nil => intro h; exact absurd rfl h
  | cons n rest ih =>
    intro _ f hf
    cases rest with
    | nil =>
      rw [dropLast_renderBody_single] at hf ⊢
      cases f with
      | zero => exact absurd hf (by omega)
      | succ f2 =>
        rw [matchItemsAux]
        obtain ⟨h1, h2⟩ := takeWhile_digits_append (natToChars n) (natToChars_digits n)
          (show isDigitCh '\x7d' = false by decide) []
        rw [if_neg (by rw [h1]; simpa [List.isEmpty_iff] using natToChars_ne_nil n),
          h2, skipSp_cons_ne (by decide) _]
        dsimp only
        rw [if_neg (by decide), if_pos rfl]
        rfl
    | cons m rest2 =>
      rw [dropLast_renderBody_cons, List.append_assoc, List.cons_append] at hf ⊢
      cases f with
      | zero => exact absurd hf (by omega)
      | succ f2 =>
        rw [matchItemsAux]
        obtain ⟨h1, h2⟩ := takeWhile_digits_append (natToChars n) (natToChars_digits n)
          (show isDigitCh ',' = false by decide)
          ((renderBody (m :: rest2)).dropLast ++ ['\x7d'])
        rw [if_neg (by rw [h1]; simpa [List.isEmpty_iff] using natToChars_ne_nil n),
          h2, skipSp_cons_ne (by decide) _]
        dsimp only
        rw [if_pos rfl]
        obtain ⟨c0, cs, hB, hc0⟩ := render_tail_head_digit (m :: rest2) (by simp)
        rw [hB, skipSp_cons_ne (isDigitCh_ne hc0).1 _, ← hB]
        apply ih (by simp) f2
        have hlen : 1 ≤ (natToChars n).length :=
          List.length_pos.mpr (natToChars_ne_nil n)
        rw [List.length_append, List.length_cons] at hf
        omega

theorem grammarMatch_render (v : List Nat) : grammarMatch (intset_out v) = true := by
  by_cases hv : v = []
  · subst hv
    decide
  · rw [intset_out, if_neg (by simpa [List.length_eq_zero] using hv)]
    rw [grammarMatch, skipSp_cons_ne (by decide) _]
    dsimp only
    rw [if_pos rfl]
    obtain ⟨c0, cs, hB, hc0⟩ := render_tail_head_digit v hv
    rw [hB, skipSp_cons_ne (isDigitCh_ne hc0).1 _]
    dsimp only
    rw [if_neg (isDigitCh_ne hc0).2, ← hB]
    rw [matchItems]
    exact matchItemsAux_render v hv _ (by omega)

theorem digitRuns_render :
    ∀ (v : List Nat), v ≠ [] →
      digitRuns ((renderBody v).dropLast ++ ['\x7d']) = v.map natToChars := by
  intro v
  induction v with
  | nil => intro h; exact absurd rfl h
  | cons n rest ih =>
    intro _
    cases rest with
    | nil =>
      rw [dropLast_renderBody_single,
        digitRuns_digits_prefix (natToChars n) (natToChars_ne_nil n) (natToChars_digits n)
          (by decide) [],
        digitRuns_cons_nondigit (by decide)]
      rfl
    | cons m rest2 =>
      rw [dropLast_renderBody_cons, List.append_assoc, List.cons_append,
        digitRuns_digits_prefix (natToChars n) (natToChars_ne_nil n) (natToChars_digits n)
          (by decide) _,
        digitRuns_cons_nondigit (by decide), ih (by simp)]
      rfl

/-!  Sorted duplicate-free lists are fixed points of `sortDedup`. -/

theorem sdInsert_of_all_lt {x : Nat} :
    ∀ l : List Nat, (∀ y ∈ l, y < x) → sdInsert x l = l ++ [x] := by
  intro l
  induction l with
  | nil => intro _; rfl
  | cons y ys ih =>
    intro h
    have hy : y < x := h y (by simp)
    rw [sdInsert, if_neg (by omega), if_neg (by omega), ih (fun z hz => h z (by simp [hz]))]
    simp

theorem sortDedup_sorted_append :
    ∀ (v acc : List Nat), List.Pairwise (· < ·) (acc ++ v) →
      v.foldl (fun acc x => sdInsert x acc) acc = acc ++ v := by
  intro v
  induction v with
  | nil => intro acc _; simp
  | cons x xs ih =>
    intro acc h
    rw [List.foldl_cons]
    have hlt : ∀ y ∈ acc, y < x := fun y hy =>
      (List.pairwise_append.mp h).2.2 y hy x (by simp)
    rw [sdInsert_of_all_lt acc hlt]
    have h2 : List.Pairwise (· < ·) ((acc ++ [x]) ++ xs) := by
      rw [List.append_assoc]
      simpa using h
    rw [ih (acc ++ [x]) h2, List.append_assoc]
    rfl

theorem sortDedup_of_sorted {v : List Nat} (h : List.Pairwise (· < ·) v) :
    sortDedup v = v := by
  have h1 := sortDedup_sorted_append v [] (by simpa using h)
  simpa [sortDedup] using h1

/-- C4: parsing a rendered well-formed Value (strictly increasing uint32
elements) returns the same count and pointwise-identical element array. -/
theorem c4_roundtrip (v : List Nat) (hsort : List.Pairwise (· < ·) v)
    (hlt : ∀ x ∈ v, x < U32) : intset_in (intset_out v) = some v := by
  have hg : grammarMatch (intset_out v) = true := grammarMatch_render v
  by_cases hv : v = []
  · subst hv
    decide
  · rw [intset_in, if_pos hg, scanTree_eq_foldInsert, treeToArr_foldInsert_nil,
      scanNums_eq_runs hg, intset_out, if_neg (by simpa [List.length_eq_zero] using hv),
      digitRuns_cons_nondigit (by decide), digitRuns_render v hv, List.map_map]
    have hmap : v.map ((fun r => decVal r % U32) ∘ natToChars) = v := by
      have hpt : ∀ a ∈ v, ((fun r => decVal r % U32) ∘ natToChars) a = id a := by
        intro a ha
        show decVal (natToChars a) % U32 = a
        rw [decVal_natToChars, Nat.mod_eq_of_lt (hlt a ha)]
      rw [List.map_congr_left hpt, List.map_id]
    rw [hmap, sortDedup_of_sorted hsort]

/-- Witness for C4 at a concrete canonical Value, including the largest
uint32. -/
theorem c4_roundtrip_witness :
    intset_in (intset_out [0, 1, 4294967295]) = some [0, 1, 4294967295] :=
  c4_roundtrip [0, 1, 4294967295] (by decide) (by decide)

/-!  The AVL balance invariant of the Construction Tree. -/

/-- At every node the left height minus the right height lies in
`{-1, 0, 1}`. -/
def BalancedT : Tree → Prop
  | Tree.nil => True
  | Tree.node _ l r =>
    (-1 ≤ (treeHeight l : Int) - (treeHeight r : Int))
    ∧ ((treeHeight l : Int) - (treeHeight r : Int) ≤ 1)
    ∧ BalancedT l ∧ BalancedT r

theorem rebalance_balanced {n d : Nat} {l r : Tree}
    (h1 : -1 ≤ (treeHeight l : Int) - (treeHeight r : Int))
    (h2 : (treeHeight l : Int) - (treeHeight r : Int) ≤ 1) :
    rebalance n (Tree.node d l r) = Tree.node d l r := by
  simp only [rebalance]
  rw [if_neg (by omega), if_neg (by omega)]

theorem rebalance_LL {n d ld : Nat} {lL lR r : Tree}
    (hbal : ((treeHeight (Tree.node ld lL lR) : Int) - (treeHeight r : Int)) > 1)
    (hn : n < ld) :
    rebalance n (Tree.node d (Tree.node ld lL lR) r)
      = Tree.node ld lL (Tree.node d lR r) := by
  simp only [rebalance]
  rw [if_pos hbal]
  rw [if_pos hn]
  rfl

theorem rebalance_LR {n d ld m : Nat} {lL mL mR r : Tree}
    (hbal : ((treeHeight (Tree.node ld lL (Tree.node m mL mR)) : Int)
      - (treeHeight r : Int)) > 1)
    (hn : ¬ n < ld) :
    rebalance n (Tree.node d (Tree.node ld lL (Tree.node m mL mR)) r)
      = Tree.node m (Tree.node ld lL mL) (Tree.node d mR r) := by
  simp only [rebalance]
  rw [if_pos hbal]
  rw [if_neg hn]
  rfl

theorem rebalance_RR {n d rd : Nat} {l rL rR : Tree}
    (hb1 : ¬ (((treeHeight l : Int) - (treeHeight (Tree.node rd rL rR) : Int)) > 1))
    (hbal : ((treeHeight l : Int) - (treeHeight (Tree.node rd rL rR) : Int)) < -1)
    (hn : n > rd) :
    rebalance n (Tree.node d l (Tree.node rd rL rR))
      = Tree.node rd (Tree.node d l rL) rR := by
  simp only [rebalance]
  rw [if_neg hb1, if_pos hbal]
  rw [if_pos hn]
  rfl

theorem rebalance_RL {n d rd m : Nat} {l mL mR rR : Tree}
    (hb1 : ¬ (((treeHeight l : Int)
      - (treeHeight (Tree.node rd (Tree.node m mL mR) rR) : Int)) > 1))
    (hbal : ((treeHeight l : Int)
      - (treeHeight (Tree.node rd (Tree.node m mL mR) rR) : Int)) < -1)
    (hn : ¬ n > rd) :
    rebalance n (Tree.node d l (Tree.node rd (Tree.node m mL mR) rR))
      = Tree.node m (Tree.node d l mL) (Tree.node rd mR rR) := by
  simp only [rebalance]
  rw [if_neg hb1, if_pos hbal]
  rw [if_neg hn]
  rfl

/-- AVL insertion: on a balanced tree, `insertNode` returns a balanced
tree whose height grows by at most one; and when the height does grow (to
at least 2), the new root leans exactly one level towards the side holding
the inserted key.  The last clause is what justifies the source's choice of
single versus double rotation by comparing `n` with the child's key. -/
theorem insert_bal (n : Nat) :
    ∀ t : Tree, BalancedT t →
      BalancedT (insertNode n t)
      ∧ (treeHeight (insertNode n t) = treeHeight t
          ∨ treeHeight (insertNode n t) = treeHeight t + 1)
      ∧ (treeHeight (insertNode n t) = treeHeight t + 1 →
          2 ≤ treeHeight (insertNode n t) →
          ∃ (d2 : Nat) (l2 r2 : Tree), insertNode n t = Tree.node d2 l2 r2
            ∧ ((n < d2 ∧ treeHeight l2 = treeHeight r2 + 1)
               ∨ (d2 < n ∧ treeHeight r2 = treeHeight l2 + 1))) := by
  intro t
  induction t with
  | nil =>
    intro _
    refine ⟨⟨by first | omega | (simp only [treeHeight]; omega), by first | omega | (simp only [treeHeight]; omega),
      trivial, trivial⟩, Or.inr ?_, ?_⟩
    · simp only [insertNode, treeHeight]
      omega
    · intro _ h2
      simp only [insertNode, treeHeight] at h2
      omega
  | node d l r ihl ihr =>
    intro hb
    obtain ⟨hb1, hb2, bl, br⟩ := hb
    by_cases hgt : n > d
    · -- the insert goes into the right subtree
      obtain ⟨br', hh, hg⟩ := ihr br
      rw [insertNode, if_pos hgt]
      rcases hh with hsame | hgrow
      · rw [rebalance_balanced (by rw [hsame]; exact hb1) (by rw [hsame]; exact hb2)]
        refine ⟨⟨by rw [hsame]; exact hb1, by rw [hsame]; exact hb2, bl, br'⟩,
          Or.inl ?_, ?_⟩
        · simp only [treeHeight]
          omega
        · intro h1 _
          exfalso
          simp only [treeHeight] at h1
          omega
      · by_cases hcase : (treeHeight l : Int) - (treeHeight r : Int) = -1
        · -- right-right or right-left rotation restores the old height
          have hbnot : ¬ (((treeHeight l : Int) - (treeHeight (insertNode n r) : Int)) > 1) := by
            rw [hgrow]
            push_cast
            omega
          have hbal2 : ((treeHeight l : Int) - (treeHeight (insertNode n r) : Int)) < -1 := by
            rw [hgrow]
            push_cast
            omega
          have h2le : 2 ≤ treeHeight (insertNode n r) := by omega
          obtain ⟨d2, l2, r2, hstruct, hdisj⟩ := hg hgrow h2le
          have hmax : max (treeHeight l2) (treeHeight r2) + 1 = treeHeight r + 1 := by
            have hx := hgrow
            rw [hstruct] at hx
            simpa [treeHeight] using hx
          rcases hdisj with ⟨hnd2, hL⟩ | ⟨hnd2, hR⟩
          · -- the grown right child leans left: double rotation
            cases l2 with
            | nil =>
              simp only [treeHeight] at hL
              omega
            | node m mL mR =>
              have hnotgt : ¬ n > d2 := by omega
              rw [hstruct] at hbnot hbal2 br' ⊢
              obtain ⟨c1, c2, bl2, br2⟩ := br'
              obtain ⟨e1, e2, bmL, bmR⟩ := bl2
              rw [rebalance_RL hbnot hbal2 hnotgt]
              simp only [treeHeight] at hL hmax c1 c2 e1 e2 hbnot hbal2
              refine ⟨⟨by first | omega | (simp only [treeHeight]; omega), by first | omega | (simp only [treeHeight]; omega),
                ⟨by first | omega | (simp only [treeHeight]; omega), by first | omega | (simp only [treeHeight]; omega), bl, bmL⟩,
                ⟨by first | omega | (simp only [treeHeight]; omega), by first | omega | (simp only [treeHeight]; omega), bmR, br2⟩⟩,
                Or.inl (by first | omega | (simp only [treeHeight]; omega)), ?_⟩
              intro h1 _
              exfalso
              simp only [treeHeight] at h1
              omega
          · -- the grown right child leans right: single left rotation
            rw [hstruct] at hbnot hbal2 br' ⊢
            obtain ⟨c1, c2, bl2, br2⟩ := br'
            rw [rebalance_RR hbnot hbal2 hnd2]
            simp only [treeHeight] at hR hmax c1 c2 hbnot hbal2
            refine ⟨⟨by first | omega | (simp only [treeHeight]; omega), by first | omega | (simp only [treeHeight]; omega),
              ⟨by first | omega | (simp only [treeHeight]; omega), by first | omega | (simp only [treeHeight]; omega), bl, bl2⟩, br2⟩,
              Or.inl (by first | omega | (simp only [treeHeight]; omega)), ?_⟩
            intro h1 _
            exfalso
            simp only [treeHeight] at h1
            omega
        · -- no rotation; the node may grow by one
          have hc1 : -1 ≤ ((treeHeight l : Int) - (treeHeight (insertNode n r) : Int)) := by
            rw [hgrow]
            push_cast
            omega
          have hc2 : ((treeHeight l : Int) - (treeHeight (insertNode n r) : Int)) ≤ 1 := by
            rw [hgrow]
            push_cast
            omega
          rw [rebalance_balanced hc1 hc2]
          by_cases heq : treeHeight l = treeHeight r
          · refine ⟨⟨hc1, hc2, bl, br'⟩, Or.inr ?_, ?_⟩
            · simp only [treeHeight]
              omega
            · intro _ _
              exact ⟨d, l, insertNode n r, rfl, Or.inr ⟨hgt, by omega⟩⟩
          · refine ⟨⟨hc1, hc2, bl, br'⟩, Or.inl ?_, ?_⟩
            · simp only [treeHeight]
              omega
            · intro h1 _
              exfalso
              simp only [treeHeight] at h1
              omega
    · by_cases hlt : n < d
      · -- the insert goes into the left subtree
        obtain ⟨bl', hh, hg⟩ := ihl bl
        rw [insertNode, if_neg hgt, if_pos hlt]
        rcases hh with hsame | hgrow
        · rw [rebalance_balanced (by rw [hsame]; exact hb1) (by rw [hsame]; exact hb2)]
          refine ⟨⟨by rw [hsame]; exact hb1, by rw [hsame]; exact hb2, bl', br⟩,
            Or.inl ?_, ?_⟩
          · simp only [treeHeight]
            omega
          · intro h1 _
            exfalso
            simp only [treeHeight] at h1
            omega
        · by_cases hcase : (treeHeight l : Int) - (treeHeight r : Int) = 1
          · -- left-left or left-right rotation restores the old height
            have hbal2 : ((treeHeight (insertNode n l) : Int) - (treeHeight r : Int)) > 1 := by
              rw [hgrow]
              push_cast
              omega
            have h2le : 2 ≤ treeHeight (insertNode n l) := by omega
            obtain ⟨d2, l2, r2, hstruct, hdisj⟩ := hg hgrow h2le
            have hmax : max (treeHeight l2) (treeHeight r2) + 1 = treeHeight l + 1 := by
              have hx := hgrow
              rw [hstruct] at hx
              simpa [treeHeight] using hx
            rcases hdisj with ⟨hnd2, hL⟩ | ⟨hnd2, hR⟩
            · -- the grown left child leans left: single right rotation
              rw [hstruct] at hbal2 bl' ⊢
              obtain ⟨c1, c2, bl2, br2⟩ := bl'
              rw [rebalance_LL hbal2 hnd2]
              simp only [treeHeight] at hL hmax c1 c2 hbal2
              refine ⟨⟨by first | omega | (simp only [treeHeight]; omega), by first | omega | (simp only [treeHeight]; omega), bl2,
                ⟨by first | omega | (simp only [treeHeight]; omega), by first | omega | (simp only [treeHeight]; omega), br2, br⟩⟩,
                Or.inl (by first | omega | (simp only [treeHeight]; omega)), ?_⟩
              intro h1 _
              exfalso
              simp only [treeHeight] at h1
              omega
            · -- the grown left child leans right: double rotation
              cases r2 with
              | nil =>
                simp only [treeHeight] at hR
                omega
              | node m mL mR =>
                have hnotlt : ¬ n < d2 := by omega
                rw [hstruct] at hbal2 bl' ⊢
                obtain ⟨c1, c2, bl2, br2⟩ := bl'
                obtain ⟨e1, e2, bmL, bmR⟩ := br2
                rw [rebalance_LR hbal2 hnotlt]
                simp only [treeHeight] at hR hmax c1 c2 e1 e2 hbal2
                refine ⟨⟨by first | omega | (simp only [treeHeight]; omega), by first | omega | (simp only [treeHeight]; omega),
                  ⟨by first | omega | (simp only [treeHeight]; omega), by first | omega | (simp only [treeHeight]; omega), bl2, bmL⟩,
                  ⟨by first | omega | (simp only [treeHeight]; omega), by first | omega | (simp only [treeHeight]; omega), bmR, br⟩⟩,
                  Or.inl (by first | omega | (simp only [treeHeight]; omega)), ?_⟩
                intro h1 _
                exfalso
                simp only [treeHeight] at h1
                omega
          · -- no rotation; the node may grow by one
            have hc1 : -1 ≤ ((treeHeight (insertNode n l) : Int) - (treeHeight r : Int)) := by
              rw [hgrow]
              push_cast
              omega
            have hc2 : ((treeHeight (insertNode n l) : Int) - (treeHeight r : Int)) ≤ 1 := by
              rw [hgrow]
              push_cast
              omega
            rw [rebalance_balanced hc1 hc2]
            by_cases heq : treeHeight l = treeHeight r
            · refine ⟨⟨hc1, hc2, bl', br⟩, Or.inr ?_, ?_⟩
              · simp only [treeHeight]
                omega
              · intro _ _
                exact ⟨d, insertNode n l, r, rfl, Or.inl ⟨hlt, by omega⟩⟩
            · refine ⟨⟨hc1, hc2, bl', br⟩, Or.inl ?_, ?_⟩
              · simp only [treeHeight]
                omega
              · intro h1 _
                exfalso
                simp only [treeHeight] at h1
                omega
      · -- n = d: duplicate key, the tree is unchanged
        rw [insertNode, if_neg hgt, if_neg hlt, rebalance_balanced hb1 hb2]
        exact ⟨⟨hb1, hb2, bl, br⟩, Or.inl rfl, fun h1 _ => absurd h1 (by omega)⟩

/-- C8: every Construction Tree reachable from the empty tree by a
sequence of `insertNode` operations is a binary search tree and is
height-balanced (left height minus right height in `{-1, 0, 1}` at every
node). -/
theorem c8_construction_tree_invariant (lst : List Nat) :
    ST (foldInsert lst Tree.nil) ∧ BalancedT (foldInsert lst Tree.nil) := by
  suffices h : ∀ (ks : List Nat) (t : Tree), ST t → BalancedT t →
      ST (foldInsert ks t) ∧ BalancedT (foldInsert ks t) by
    exact h lst Tree.nil trivial trivial
  intro ks
  induction ks with
  | nil => intro t h1 h2; exact ⟨h1, h2⟩
  | cons x xs ih =>
    intro t h1 h2
    exact ih _ (ST_insertNode h1) (insert_bal x t h2).1

end IntSetSpec
